import Mathlib

/-!
Verification development for the silverlock-diary item store.

The Python source is shallowly embedded: Python `str` values are modelled as
`List Char` (named `Str` below), so that slicing, concatenation and prefix
tests are ordinary list operations; bytes are modelled as `Nat` values
(`< 256` where it matters); ISO-8601 timestamps, which the source compares
only lexicographically (and lexicographic order on ISO-8601 strings agrees
with chronological order), are modelled as `Nat`; the filesystem is modelled
as an existence predicate `Str → Bool`; and the scrypt key-derivation
function, an external library primitive, is a parameter `kdf : Bytes → Str →
Bytes` of the credential definitions (the source fixes its cost parameters,
so a credential is determined by salt and password).
-/

/-- Python strings are finite sequences of characters. -/
abbrev Str := List Char

/-- Converts a Lean string literal to the `Str` model. -/
def str (s : String) : Str := s.data

/-- Bytes as naturals; values are kept below 256 by hypotheses where needed. -/
abbrev Bytes := List Nat

/-- Python lexicographic string comparison `a <= b` (by code point). -/
def strLe : Str → Str → Bool
  | [], _ => true
  | _ :: _, [] => false
  | a :: as, b :: bs => if a < b then true else if b < a then false else strLe as bs

/-- Python `str.strip()` (leading and trailing whitespace removed). -/
def pstrip (s : Str) : Str :=
  ((s.dropWhile (fun c => c.isWhitespace)).reverse.dropWhile (fun c => c.isWhitespace)).reverse

/-- Python `str.lower()` applied characterwise (ASCII case folding). -/
def plower (s : Str) : Str := s.map Char.toLower

/-- `os.path.join(a, b)` for POSIX paths as used by the source. -/
def joinPath (a b : Str) : Str :=
  if b.head? = some '/' then b
  else if a = [] ∨ a.getLast? = some '/' then a ++ b
  else a ++ '/' :: b

/-- The head part `p[:i]` of `posixpath.split`, `i` just past the last slash. -/
def splitHead (p : Str) : Str := (p.reverse.dropWhile (fun c => !(c = '/'))).reverse

/-- `os.path.basename`: the part of the path after the last slash. -/
def basename (p : Str) : Str := (p.reverse.takeWhile (fun c => !(c = '/'))).reverse

/-- Python `str.rstrip('/')`. -/
def rstripSlash (h : Str) : Str := (h.reverse.dropWhile (fun c => c = '/')).reverse

/-- `os.path.dirname`: head of the split, trailing slashes stripped unless the
head is empty or consists only of slashes. -/
def dirname (p : Str) : Str :=
  let h := splitHead p
  if h = [] then []
  else if h.all (fun c => c = '/') then h
  else rstripSlash h

/-- The item kinds of the store (`item_type` strings in the source). -/
inductive ItemKind where
  | file
  | folder
deriving DecidableEq, Repr

/-- `FileSystemItem`: raw on-disk name, full path, and kind. -/
structure FSItem where
  name : Str
  full_path : Str
  kind : ItemKind
deriving DecidableEq, Repr

/-- The reserved on-disk marker distinguishing folders (`-__` in the source). -/
def folderMarker : Str := str "-__"

/-- `FileSystemItem.display_name`: the marker is stripped for folder items. -/
def display_name (it : FSItem) : Str :=
  if it.kind = ItemKind.folder ∧ folderMarker.isPrefixOf it.name then it.name.drop 3
  else it.name

/-- Invalid filename characters rejected by the rename/add dialogs. -/
def invalidChars : Str := str "/\\:*?\"<>|"

/-- Tests whether a candidate name contains an invalid character. -/
def hasInvalidChar (n : Str) : Bool := n.any (fun c => invalidChars.contains c)

/-- Name validation as performed by the dialogs: nonempty after stripping and
free of invalid characters. -/
def validateName (candidate : Str) : Bool :=
  !(pstrip candidate).isEmpty && !hasInvalidChar (pstrip candidate)

/-- `FileSystemManager.scan_directory` classification of one `os.scandir`
entry: names carrying the reserved marker become Folder items, all others
File items; `entry.path` joins the base path with the name. -/
def classifyEntry (base : Str) (nm : Str) : FSItem :=
  if folderMarker.isPrefixOf nm then
    { name := nm, full_path := joinPath base nm, kind := ItemKind.folder }
  else
    { name := nm, full_path := joinPath base nm, kind := ItemKind.file }

/-- Sort rank of an item: Python sorts by the tuple
`(item_type == 'file', display_name.lower())`, so files rank above folders. -/
def scanRank (it : FSItem) : Nat := if it.kind = ItemKind.file then 1 else 0

/-- The comparison realised by Python `items.sort(key=lambda x:
(x.item_type == 'file', x.display_name.lower()))`. -/
def scanLe (a b : FSItem) : Bool :=
  if scanRank a < scanRank b then true
  else if scanRank b < scanRank a then false
  else strLe (plower (display_name a)) (plower (display_name b))

/-- `FileSystemManager.scan_directory`: a missing directory yields `[]`;
otherwise entries are classified and sorted folders-first then
case-insensitively by display name (Python `list.sort` is stable, as is
`List.mergeSort`). `listing` is `none` when `os.path.exists` is false. -/
def scan_directory (base : Str) (listing : Option (List Str)) : List FSItem :=
  match listing with
  | none => []
  | some names => (names.map (classifyEntry base)).mergeSort scanLe

/-- `HistoryItem` records of `history.json`. -/
structure HistoryItem where
  name : Str
  full_path : Str
  last_accessed : Nat
  access_count : Nat
deriving DecidableEq, Repr

/-- `PinnedItem` records of `pinned.json`. -/
structure PinnedItem where
  name : Str
  full_path : Str
  pinned_at : Nat
deriving DecidableEq, Repr

/-- Comparison realised by `history_items.sort(key=..last_accessed, reverse=True)`:
most recent first, ties keeping original order under a stable sort. -/
def histLe (a b : HistoryItem) : Bool := decide (b.last_accessed ≤ a.last_accessed)

/-- Comparison realised by `pinned_items.sort(key=..pinned_at, reverse=True)`. -/
def pinLe (a b : PinnedItem) : Bool := decide (b.pinned_at ≤ a.pinned_at)

/-- The fresh record appended by `HistoryManager.add_file_to_history`. -/
def newHistoryRecord (now : Nat) (fi : FSItem) : HistoryItem :=
  { name := display_name fi, full_path := fi.full_path, last_accessed := now, access_count := 1 }

/-- Updates the first history record matching the path, as the source's
for-loop with `break` does: refresh the timestamp and bump the count. -/
def updateFirst (p : Str) (now : Nat) : List HistoryItem → List HistoryItem
  | [] => []
  | it :: rest =>
    if it.full_path = p then
      { it with last_accessed := now, access_count := it.access_count + 1 } :: rest
    else it :: updateFirst p now rest

/-- `HistoryManager.add_file_to_history`: upsert keyed on `full_path`,
re-sort most-recent-first, truncate to the 50 most recent. -/
def add_file_to_history (now : Nat) (fi : FSItem) (s : List HistoryItem) : List HistoryItem :=
  let s' :=
    if s.any (fun it => decide (it.full_path = fi.full_path)) then updateFirst fi.full_path now s
    else s ++ [newHistoryRecord now fi]
  (s'.mergeSort histLe).take 50

/-- `HistoryManager.remove_item`: drop every record with the given path. -/
def remove_item (p : Str) (s : List HistoryItem) : List HistoryItem :=
  s.filter (fun it => !(it.full_path = p))

/-- `HistoryManager.update_path`: records whose `full_path` equals `old_path`
exactly get the new path, and the cached name is refreshed when it still
equals `basename(old_path)`. -/
def history_update_path (oldPath newPath : Str) (s : List HistoryItem) : List HistoryItem :=
  s.map (fun it =>
    if it.full_path = oldPath then
      { it with
        full_path := newPath,
        name := if it.name = basename oldPath then basename newPath else it.name }
    else it)

/-- `PinManager.is_pinned`. -/
def is_pinned (p : Str) (s : List PinnedItem) : Bool :=
  s.any (fun it => decide (it.full_path = p))

/-- `PinManager.pin_file_item`: refuse when already pinned, else append a
fresh record, re-sort most-recent-first, truncate to 20. -/
def pin_file_item (now : Nat) (fi : FSItem) (s : List PinnedItem) : Bool × List PinnedItem :=
  if is_pinned fi.full_path s then (false, s)
  else
    let s' := s ++ [{ name := display_name fi, full_path := fi.full_path, pinned_at := now }]
    (true, (s'.mergeSort pinLe).take 20)

/-- `PinManager.unpin_file`: drop every record with the given path. -/
def unpin_file (p : Str) (s : List PinnedItem) : List PinnedItem :=
  s.filter (fun it => !(it.full_path = p))

/-- `PinManager.update_path`: exact-path rewrite, mirroring
`HistoryManager.update_path`. -/
def pin_update_path (oldPath newPath : Str) (s : List PinnedItem) : List PinnedItem :=
  s.map (fun it =>
    if it.full_path = oldPath then
      { it with
        full_path := newPath,
        name := if it.name = basename oldPath then basename newPath else it.name }
    else it)

/-- Outcome of the rename pipeline (dialog validation plus
`FileSystemManager.rename_item`). -/
inductive RenameOutcome where
  | emptyName
  | unchanged
  | invalidName
  | collision
  | renamed (newPath : Str)
deriving DecidableEq, Repr

/-- The rename pipeline: `RenameDialog.accept_dialog` strips the candidate,
rejects empty names, no-ops on an unchanged name, rejects invalid characters;
then `FileSystemManager.rename_item` re-encodes folder names with the
reserved marker, computes the destination next to the old path, and refuses
to overwrite an existing destination. `fsExists` is the `os.path.exists`
predicate of the current filesystem. -/
def renameOperation (fsExists : Str → Bool) (it : FSItem) (candidate : Str) : RenameOutcome :=
  let n := pstrip candidate
  if n = [] then RenameOutcome.emptyName
  else if n = display_name it then RenameOutcome.unchanged
  else if hasInvalidChar n then RenameOutcome.invalidName
  else
    let newRaw := if it.kind = ItemKind.folder then folderMarker ++ n else n
    let newPath := joinPath (dirname it.full_path) newRaw
    if fsExists newPath then RenameOutcome.collision
    else RenameOutcome.renamed newPath

/-- True exactly when the pipeline reached `os.rename`, i.e. mutated the
filesystem. -/
def renameChangesFs : RenameOutcome → Bool
  | RenameOutcome.renamed _ => true
  | _ => false

/-- Outcome of the move pipeline (dialog validation plus
`FileSystemManager.move_item`). -/
inductive MoveOutcome where
  | sameLocation
  | selfContained
  | collision
  | moved (newPath : Str)
deriving DecidableEq, Repr

/-- The move pipeline: `MoveDialog.accept_dialog` defaults an empty selection
to the content root, refuses moving to the item's own directory, and for
folders refuses a target inside the item's own path (string-prefix check);
then `FileSystemManager.move_item` joins the target with the item's basename
and refuses an existing destination. -/
def moveOperation (fsExists : Str → Bool) (it : FSItem) (target : Str) : MoveOutcome :=
  let sel := if target = [] then str "data" else target
  if sel = dirname it.full_path then MoveOutcome.sameLocation
  else if it.kind = ItemKind.folder ∧ it.full_path.isPrefixOf sel then MoveOutcome.selfContained
  else
    let newPath := joinPath sel (basename it.full_path)
    if fsExists newPath then MoveOutcome.collision
    else MoveOutcome.moved newPath

/-- True exactly when the pipeline reached `shutil.move`. -/
def moveChangesFs : MoveOutcome → Bool
  | MoveOutcome.moved _ => true
  | _ => false

/-- Dashboard `rename_item`: on filesystem success, `update_path` runs on the
history index, and on the pin index only for File items. -/
def dashboardRename (fsExists : Str → Bool) (it : FSItem) (candidate : Str)
    (hist : List HistoryItem) (pins : List PinnedItem) :
    RenameOutcome × List HistoryItem × List PinnedItem :=
  match renameOperation fsExists it candidate with
  | RenameOutcome.renamed newPath =>
    (RenameOutcome.renamed newPath,
     history_update_path it.full_path newPath hist,
     if it.kind = ItemKind.file then pin_update_path it.full_path newPath pins else pins)
  | out => (out, hist, pins)

/-- Dashboard `move_item`: same index-update discipline as rename. -/
def dashboardMove (fsExists : Str → Bool) (it : FSItem) (target : Str)
    (hist : List HistoryItem) (pins : List PinnedItem) :
    MoveOutcome × List HistoryItem × List PinnedItem :=
  match moveOperation fsExists it target with
  | MoveOutcome.moved newPath =>
    (MoveOutcome.moved newPath,
     history_update_path it.full_path newPath hist,
     if it.kind = ItemKind.file then pin_update_path it.full_path newPath pins else pins)
  | out => (out, hist, pins)

/-- Dashboard `delete_item` after confirmation: `fsOk` abstracts the success
of `shutil.rmtree`; on success the exact path is removed from history, and
from pins only for File items. -/
def dashboardDelete (fsOk : Bool) (it : FSItem)
    (hist : List HistoryItem) (pins : List PinnedItem) :
    Bool × List HistoryItem × List PinnedItem :=
  if fsOk then
    (true, remove_item it.full_path hist,
     if it.kind = ItemKind.file then unpin_file it.full_path pins else pins)
  else (false, hist, pins)

/-- The urlsafe base64 alphabet: value 0..63 to character. -/
def b64chr (n : Nat) : Char :=
  if n < 26 then Char.ofNat (65 + n)
  else if n < 52 then Char.ofNat (71 + n)
  else if n < 62 then Char.ofNat (n - 4)
  else if n = 62 then '-' else '_'

/-- Inverse of the urlsafe base64 alphabet. -/
def b64val (c : Char) : Nat :=
  if 'A' ≤ c ∧ c ≤ 'Z' then c.toNat - 65
  else if 'a' ≤ c ∧ c ≤ 'z' then c.toNat - 71
  else if '0' ≤ c ∧ c ≤ '9' then c.toNat + 4
  else if c = '-' then 62
  else if c = '_' then 63
  else 0

/-- `base64.urlsafe_b64encode`: three bytes become four alphabet characters,
with `=` padding for a final group of one or two bytes. -/
def b64encode : Bytes → Str
  | [] => []
  | [x] => [b64chr (x / 4), b64chr (x % 4 * 16), '=', '=']
  | [x, y] => [b64chr (x / 4), b64chr (x % 4 * 16 + y / 16), b64chr (y % 16 * 4), '=']
  | x :: y :: z :: rest =>
    b64chr (x / 4) :: b64chr (x % 4 * 16 + y / 16) :: b64chr (y % 16 * 4 + z / 64) ::
      b64chr (z % 64) :: b64encode rest

/-- `base64.urlsafe_b64decode` on well-formed input: four characters become
three bytes, and a group carrying `=` padding (which valid base64 places only
in the final group) one or two bytes. -/
def b64decode : Str → Bytes
  | a :: b :: c :: d :: rest =>
    if c = '=' then [b64val a * 4 + b64val b / 16]
    else if d = '=' then [b64val a * 4 + b64val b / 16, b64val b % 16 * 16 + b64val c / 4]
    else
      (b64val a * 4 + b64val b / 16) :: (b64val b % 16 * 16 + b64val c / 4) ::
        (b64val c % 4 * 64 + b64val d) :: b64decode rest
  | _ => []

/-- `hash_password`: derive a 32-byte key from the password with the
(parameterised) KDF under a fresh 16-byte salt, and return
`urlsafe_b64encode(salt + key)`. The salt, drawn by `os.urandom(16)` in the
source, is a parameter here. -/
def hash_password (kdf : Bytes → Str → Bytes) (salt : Bytes) (password : Str) : Str :=
  b64encode (salt ++ kdf salt password)

/-- `verify_password`: decode the stored blob, split off the 16-byte salt,
re-derive with the same salt and compare to the stored key (`Scrypt.verify`
raises on mismatch, which the source turns into `False`). -/
def verify_password (kdf : Bytes → Str → Bytes) (stored : Str) (candidate : Str) : Bool :=
  let decoded := b64decode stored
  let salt := decoded.take 16
  decide (kdf salt candidate = decoded.drop 16)

/-- `PasswordManager.setup_password_for_item`: with no explicit password the
default is the first three characters of the item's display name; the
credential persisted is `hash_password` of that password. -/
def setup_password_for_item (kdf : Bytes → Str → Bytes) (salt : Bytes)
    (it : FSItem) (password : Option Str) : Str :=
  let pw := match password with
    | none => (display_name it).take 3
    | some p => p
  hash_password kdf salt pw

/-- State of an item's credential file `content.bin`: absent, present but
unreadable (`open`/`read` raises), or present with readable contents. -/
inductive CredFile where
  | missing
  | unreadable
  | present (blob : Str)
deriving DecidableEq, Repr

/-- `PasswordManager.load_password_hash`: a missing file yields `None`, and a
read error is caught and also yields `None`; otherwise the raw blob. -/
def load_password_hash : CredFile → Option Str
  | CredFile.missing => none
  | CredFile.unreadable => none
  | CredFile.present blob => some blob

/-- The access decision of `_open_file_with_password_check`: either the file
content opens immediately, or a login window demanding verification against
the loaded hash is interposed. -/
inductive OpenFlow where
  | openedDirectly
  | authRequired (storedHash : Str)
deriving DecidableEq, Repr

/-- `_open_file_with_password_check`: when `load_password_hash` returns
`None` the file opens directly with no password prompt; otherwise a
`LoginWindow` gates the open on `verify_password` succeeding. -/
def open_file_with_password_check (cf : CredFile) : OpenFlow :=
  match load_password_hash cf with
  | none => OpenFlow.openedDirectly
  | some h => OpenFlow.authRequired h

/-- Abstract KDF used by witnesses: 32 bytes determined by password length. -/
def kdfProbe : Bytes → Str → Bytes := fun _ q => q.length % 256 :: List.replicate 31 0

/-- Concrete all-zero 16-byte salt used by witnesses. -/
def saltProbe : Bytes := List.replicate 16 0

/-- A full 50-record history state with distinct paths and distinct
timestamps, used to exercise the eviction boundary. -/
def hist50 : List HistoryItem :=
  (List.range 50).map (fun i =>
    { name := [], full_path := List.replicate i 'p', last_accessed := i + 1, access_count := 1 })

/-- A File item whose path is fresh with respect to `hist50`. -/
def probeFile : FSItem := { name := str "new", full_path := str "data/new", kind := ItemKind.file }

/-- The unique oldest record of `hist50`. -/
def oldestRecord : HistoryItem :=
  { name := [], full_path := [], last_accessed := 1, access_count := 1 }

/-- A concrete File item named Diary. -/
def diaryFile : FSItem := { name := str "Diary", full_path := str "data/Diary", kind := ItemKind.file }

/-- A concrete File item named doc. -/
def docFile : FSItem := { name := str "doc", full_path := str "data/doc", kind := ItemKind.file }

/-- A concrete Folder item with raw name -__A under the content root. -/
def folderA : FSItem := { name := str "-__A", full_path := str "data/-__A", kind := ItemKind.folder }

/-- A history state holding one record strictly inside `folderA`. -/
def subHist : List HistoryItem := [⟨str "f", str "data/-__A/f", 5, 1⟩]

/-- A pin state holding one record strictly inside `folderA`. -/
def subPins : List PinnedItem := [⟨str "f", str "data/-__A/f", 5⟩]

-- Base64 alphabet facts, checked over all 64 sextet values.

theorem b64val_b64chr : ∀ n, n < 64 → b64val (b64chr n) = n := by decide

theorem b64chr_ne_pad : ∀ n, n < 64 → ¬ b64chr n = '=' := by decide

-- Unfolding equations of `b64decode` on one four-character group.

theorem b64decode_g2 (a b : Char) :
    b64decode [a, b, '=', '='] = [b64val a * 4 + b64val b / 16] := by
  simp [b64decode]

theorem b64decode_g1 (a b c : Char) (hc : ¬ c = '=') :
    b64decode [a, b, c, '='] =
      [b64val a * 4 + b64val b / 16, b64val b % 16 * 16 + b64val c / 4] := by
  simp [b64decode, hc]

theorem b64decode_g0 (a b c d : Char) (rest : Str) (hc : ¬ c = '=') (hd : ¬ d = '=') :
    b64decode (a :: b :: c :: d :: rest) =
      (b64val a * 4 + b64val b / 16) :: (b64val b % 16 * 16 + b64val c / 4) ::
        (b64val c % 4 * 64 + b64val d) :: b64decode rest := by
  simp [b64decode, hc, hd]

/-- Decoding inverts encoding on any byte sequence. -/
theorem b64decode_b64encode (l : Bytes) (h : ∀ b ∈ l, b < 256) :
    b64decode (b64encode l) = l := by
  induction l using b64encode.induct with
  | case1 => rfl
  | case2 x =>
    have hx : x < 256 := h x (by simp)
    rw [b64encode, b64decode_g2, b64val_b64chr _ (by omega), b64val_b64chr _ (by omega)]
    simp only [List.cons.injEq, and_true]
    omega
  | case3 x y =>
    have hx : x < 256 := h x (by simp)
    have hy : y < 256 := h y (by simp)
    rw [b64encode, b64decode_g1 _ _ _ (b64chr_ne_pad _ (by omega)),
        b64val_b64chr _ (by omega), b64val_b64chr _ (by omega), b64val_b64chr _ (by omega)]
    simp only [List.cons.injEq, and_true]
    constructor
    · omega
    · omega
  | case4 x y z rest ih =>
    have hx : x < 256 := h x (by simp)
    have hy : y < 256 := h y (by simp)
    have hz : z < 256 := h z (by simp)
    rw [b64encode, b64decode_g0 _ _ _ _ _ (b64chr_ne_pad _ (by omega)) (b64chr_ne_pad _ (by omega)),
        b64val_b64chr _ (by omega), b64val_b64chr _ (by omega),
        b64val_b64chr _ (by omega), b64val_b64chr _ (by omega),
        ih (fun b hb => h b (by simp [hb]))]
    simp only [List.cons.injEq, and_true]
    refine ⟨by omega, by omega, by omega⟩

/-- A credential blob decodes back to its salt and derived key. -/
theorem credential_blob_split (kdf : Bytes → Str → Bytes) (salt : Bytes) (p : Str)
    (hsalt : ∀ b ∈ salt, b < 256) (hkey : ∀ b ∈ kdf salt p, b < 256) :
    b64decode (hash_password kdf salt p) = salt ++ kdf salt p := by
  rw [hash_password, b64decode_b64encode]
  intro b hb
  rcases List.mem_append.mp hb with h1 | h2
  · exact hsalt b h1
  · exact hkey b h2

/-- `verify_password` against a fresh credential reduces to comparing derived
keys. -/
theorem verify_hash (kdf : Bytes → Str → Bytes) (salt : Bytes) (p q : Str)
    (hlen : salt.length = 16) (hsalt : ∀ b ∈ salt, b < 256)
    (hkey : ∀ b ∈ kdf salt p, b < 256) :
    verify_password kdf (hash_password kdf salt p) q = decide (kdf salt q = kdf salt p) := by
  rw [verify_password]
  simp only [credential_blob_split kdf salt p hsalt hkey]
  rw [← hlen, List.take_left, List.drop_left]

-- Length facts about the path helpers.

theorem rstripSlash_length_le (h : Str) : (rstripSlash h).length ≤ h.length := by
  rw [rstripSlash, List.length_reverse]
  calc (h.reverse.dropWhile fun c => c = '/').length ≤ h.reverse.length :=
        (List.dropWhile_sublist _).length_le
    _ = h.length := List.length_reverse h

theorem splitHead_length_le (p : Str) : (splitHead p).length ≤ p.length := by
  rw [splitHead, List.length_reverse]
  calc (p.reverse.dropWhile fun c => !(c = '/')).length ≤ p.reverse.length :=
        (List.dropWhile_sublist _).length_le
    _ = p.length := List.length_reverse p

theorem dirname_length_le (p : Str) : (dirname p).length ≤ p.length := by
  rw [dirname]
  split
  · simp
  · split
    · exact splitHead_length_le p
    · exact le_trans (rstripSlash_length_le _) (splitHead_length_le p)

/-- Taking the directory of a path that has at least one non-slash character
strictly shortens it, as it does for every path of this store. -/
theorem dirname_length_lt (p : Str) (hne : ¬ p = [])
    (hns : ∃ c ∈ p, ¬ c = '/') : (dirname p).length < p.length := by
  cases hrev : p.reverse with
  | nil => exact absurd (by simpa using congrArg List.reverse hrev) hne
  | cons c t =>
    have hlen : p.length = t.length + 1 := by
      have := congrArg List.length hrev
      simpa using this
    by_cases hc : c = '/'
    · -- the last character of p is a slash, so splitHead keeps all of p
      have hsh : splitHead p = p := by
        rw [splitHead, hrev, List.dropWhile_cons, if_neg (by simp [hc])]
        rw [← hrev, List.reverse_reverse]
      rw [dirname, hsh]
      rw [if_neg hne]
      have hall : ¬ p.all (fun c => c = '/') = true := by
        simp only [List.all_eq_true]
        push_neg
        obtain ⟨x, hx, hx2⟩ := hns
        exact ⟨x, hx, by simpa using hx2⟩
      rw [if_neg hall]
      rw [rstripSlash, List.length_reverse, hrev, List.dropWhile_cons, if_pos (by simp [hc])]
      calc (t.dropWhile fun c => c = '/').length ≤ t.length := (List.dropWhile_sublist _).length_le
        _ < p.length := by omega
    · -- the last character of p is not a slash, so splitHead drops it
      have hsh : (splitHead p).length ≤ t.length := by
        rw [splitHead, List.length_reverse, hrev, List.dropWhile_cons, if_pos (by simp [hc])]
        exact (List.dropWhile_sublist _).length_le
      rw [dirname]
      split
      · simp only [List.length_nil]
        omega
      · split
        · omega
        · exact lt_of_le_of_lt (le_trans (rstripSlash_length_le _) hsh) (by omega)

/-- C4: moving a Folder item onto itself or onto any path inside its own
subtree is rejected by the validation step of the move pipeline, with a
self-containment error and no filesystem mutation. -/
theorem move_rejects_self_containment
    (fsExists : Str → Bool) (nm F T : Str)
    (hdata : str "data/" <+: F)
    (hT : T = F ∨ F ++ ['/'] <+: T) :
    moveOperation fsExists ⟨nm, F, ItemKind.folder⟩ T = MoveOutcome.selfContained ∧
    moveChangesFs (moveOperation fsExists ⟨nm, F, ItemKind.folder⟩ T) = false := by
  have hFlen : 5 ≤ F.length := by
    have := hdata.length_le
    simpa [str] using this
  have hFne : ¬ F = [] := by
    intro h
    rw [h] at hFlen
    simp at hFlen
  have hnonslash : ∃ c ∈ F, ¬ c = '/' := by
    obtain ⟨rest, hrest⟩ := hdata
    refine ⟨'d', ?_, by decide⟩
    rw [← hrest]
    simp [str]
  have hdlt : (dirname F).length < F.length := dirname_length_lt F hFne hnonslash
  have hTne : ¬ T = [] := by
    rcases hT with h | h
    · rw [h]; exact hFne
    · intro hnil
      have := h.length_le
      rw [hnil] at this
      simp at this
  have hTd : ¬ T = dirname F := by
    rcases hT with h | h
    · rw [h]
      intro heq
      have := congrArg List.length heq
      omega
    · intro heq
      have h1 := h.length_le
      have h2 : (F ++ ['/']).length = F.length + 1 := by simp
      have := dirname_length_le F
      rw [heq] at h1
      omega
  have hpre : F.isPrefixOf T = true := by
    rw [ List.isPrefixOf_iff_prefix]
    rcases hT with h | h
    · rw [h]
    · exact List.IsPrefix.trans (List.prefix_append F ['/']) h
  have hout : moveOperation fsExists ⟨nm, F, ItemKind.folder⟩ T = MoveOutcome.selfContained := by
    rw [moveOperation]
    simp only [if_neg hTne]
    rw [if_neg hTd, if_pos ⟨trivial, hpre⟩]
  exact ⟨hout, by rw [hout]; rfl⟩

-- Totality and transitivity of the lexicographic string comparison.

theorem strLe_total : ∀ x y : Str, strLe x y = true ∨ strLe y x = true := by
  intro x
  induction x with
  | nil => intro y; left; rfl
  | cons a as ih =>
    intro y
    cases y with
    | nil => right; rfl
    | cons b bs =>
      by_cases hab : a < b
      · left
        simp [strLe, hab]
      · by_cases hba : b < a
        · right
          simp [strLe, hba, asymm hba]
        · have hEq : a = b := le_antisymm (le_of_not_lt hba) (le_of_not_lt hab)
          subst hEq
          rcases ih bs with h | h
          · left
            simpa [strLe] using h
          · right
            simpa [strLe] using h

theorem strLe_trans : ∀ x y z : Str, strLe x y = true → strLe y z = true → strLe x z = true := by
  intro x
  induction x with
  | nil => intro y z _ _; rfl
  | cons a as ih =>
    intro y z hxy hyz
    cases y with
    | nil => simp [strLe] at hxy
    | cons b bs =>
      cases z with
      | nil => simp [strLe] at hyz
      | cons c cs =>
        rw [strLe] at hxy hyz ⊢
        by_cases hab : a < b
        · by_cases hbc : b < c
          · rw [if_pos (lt_trans hab hbc)]
          · have hcb : ¬ c < b := by
              intro h
              rw [if_neg hbc, if_pos h] at hyz
              exact absurd hyz (by simp)
            have hEq : b = c := le_antisymm (le_of_not_lt hcb) (le_of_not_lt hbc)
            subst hEq
            rw [if_pos hab]
        · have hba : ¬ b < a := by
            intro h
            rw [if_neg hab, if_pos h] at hxy
            exact absurd hxy (by simp)
          have hEq : a = b := le_antisymm (le_of_not_lt hba) (le_of_not_lt hab)
          subst hEq
          rw [if_neg hab, if_neg hba] at hxy
          by_cases hbc : a < c
          · rw [if_pos hbc]
          · have hcb : ¬ c < a := by
              intro h
              rw [if_neg hbc, if_pos h] at hyz
              exact absurd hyz (by simp)
            rw [if_neg hbc, if_neg hcb]
            rw [if_neg hbc, if_neg hcb] at hyz
            exact ih bs cs hxy hyz

-- Totality and transitivity of the scan ordering.

theorem scanLe_total : ∀ a b : FSItem, (scanLe a b || scanLe b a) = true := by
  intro a b
  rw [scanLe, scanLe]
  rcases Nat.lt_trichotomy (scanRank a) (scanRank b) with h | h | h
  · simp [h]
  · rw [h]
    simp only [Nat.lt_irrefl, if_false]
    rcases strLe_total (plower (display_name a)) (plower (display_name b)) with hs | hs <;>
      simp [hs]
  · simp [h, Nat.lt_asymm h]

theorem scanLe_trans : ∀ a b c : FSItem, scanLe a b = true → scanLe b c = true →
    scanLe a c = true := by
  intro a b c hab hbc
  rw [scanLe] at hab hbc ⊢
  by_cases h1 : scanRank a < scanRank b
  · by_cases h2 : scanRank b < scanRank c
    · rw [if_pos (lt_trans h1 h2)]
    · have h3 : ¬ scanRank c < scanRank b := by
        intro h
        rw [if_neg h2, if_pos h] at hbc
        exact absurd hbc (by simp)
      have : scanRank a < scanRank c := by omega
      rw [if_pos this]
  · have h1' : ¬ scanRank b < scanRank a := by
      intro h
      rw [if_neg h1, if_pos h] at hab
      exact absurd hab (by simp)
    rw [if_neg h1, if_neg h1'] at hab
    by_cases h2 : scanRank b < scanRank c
    · rw [if_pos (by omega)]
    · have h3 : ¬ scanRank c < scanRank b := by
        intro h
        rw [if_neg h2, if_pos h] at hbc
        exact absurd hbc (by simp)
      rw [if_neg h2, if_neg h3] at hbc
      rw [if_neg (by omega : ¬ scanRank a < scanRank c), if_neg (by omega : ¬ scanRank c < scanRank a)]
      exact strLe_trans _ _ _ hab hbc

theorem scanLe_elim {a b : FSItem} (h : scanLe a b = true) :
    scanRank a ≤ scanRank b ∧
      (scanRank a = scanRank b → strLe (plower (display_name a)) (plower (display_name b)) = true) := by
  rw [scanLe] at h
  by_cases h1 : scanRank a < scanRank b
  · exact ⟨le_of_lt h1, fun heq => by omega⟩
  · by_cases h2 : scanRank b < scanRank a
    · rw [if_neg h1, if_pos h2] at h
      exact absurd h (by simp)
    · rw [if_neg h1, if_neg h2] at h
      exact ⟨by omega, fun _ => h⟩

theorem rank_one_file {b : FSItem} (h : 1 ≤ scanRank b) : b.kind = ItemKind.file := by
  by_cases hb : b.kind = ItemKind.file
  · exact hb
  · rw [scanRank, if_neg hb] at h
    omega

/-- C8: scanning yields exactly the classified entries, ordered with every
Folder item before every File item and case-insensitively by display name
within each group, and scanning a non-existent directory yields the empty
list rather than an error. -/
theorem scan_directory_spec (base : Str) (names : List Str) :
    scan_directory base none = [] ∧
    (scan_directory base (some names)).Perm (names.map (classifyEntry base)) ∧
    (scan_directory base (some names)).Pairwise (fun a b =>
      (a.kind = ItemKind.file → b.kind = ItemKind.file) ∧
      (a.kind = b.kind → strLe (plower (display_name a)) (plower (display_name b)) = true)) := by
  refine ⟨rfl, List.mergeSort_perm _ _, ?_⟩
  have hs := @List.sorted_mergeSort FSItem scanLe scanLe_trans
    (fun a b => scanLe_total a b) (names.map (classifyEntry base))
  refine hs.imp ?_
  intro a b h
  obtain ⟨hle, hstr⟩ := scanLe_elim h
  constructor
  · intro ha
    refine rank_one_file ?_
    have : scanRank a = 1 := by rw [scanRank, if_pos ha]
    omega
  · intro hk
    refine hstr ?_
    rw [scanRank, scanRank, hk]

-- Order facts for the history comparison, and the eviction argument.

theorem histLe_trans : ∀ x y z : HistoryItem, histLe x y = true → histLe y z = true →
    histLe x z = true := by
  intro x y z h1 h2
  simp only [histLe, decide_eq_true_eq] at h1 h2 ⊢
  omega

theorem histLe_total : ∀ x y : HistoryItem, (histLe x y || histLe y x) = true := by
  intro x y
  simp only [histLe, Bool.or_eq_true, decide_eq_true_eq]
  omega

/-- Touching a fresh path in a full history of 50 records with strictly older,
pairwise comparable timestamps keeps exactly 50 records: the new record
enters, the unique oldest record leaves, and every other record survives. -/
theorem recency_eviction
    (s : List HistoryItem) (fi : FSItem) (now : Nat) (r : HistoryItem)
    (hlen : s.length = 50)
    (hnodup : (s.map (fun it => it.full_path)).Nodup)
    (hfresh : ∀ it ∈ s, ¬ it.full_path = fi.full_path)
    (hmax : ∀ it ∈ s, it.last_accessed < now)
    (hrmem : r ∈ s)
    (hrmin : ∀ o ∈ s, ¬ o = r → r.last_accessed < o.last_accessed) :
    (add_file_to_history now fi s).length = 50 ∧
    newHistoryRecord now fi ∈ add_file_to_history now fi s ∧
    ¬ r ∈ add_file_to_history now fi s ∧
    (∀ o ∈ s, ¬ o = r → o ∈ add_file_to_history now fi s) := by
  have hany : s.any (fun it => decide (it.full_path = fi.full_path)) = false := by
    simp only [List.any_eq_false, decide_eq_true_eq]
    exact hfresh
  have hs' : add_file_to_history now fi s =
      ((s ++ [newHistoryRecord now fi]).mergeSort histLe).take 50 := by
    rw [add_file_to_history]
    simp [hany]
  set N := newHistoryRecord now fi with hN
  set L := (s ++ [N]).mergeSort histLe with hL
  have hperm : L.Perm (s ++ [N]) := List.mergeSort_perm _ _
  have hLlen : L.length = 51 := by
    rw [hperm.length_eq]
    simp [hlen]
  have hsorted : L.Pairwise (fun a b => histLe a b = true) :=
    List.sorted_mergeSort histLe_trans histLe_total (s ++ [N])
  obtain ⟨d, hd⟩ : ∃ d, L.drop 50 = [d] := by
    rw [← List.length_eq_one]
    rw [List.length_drop, hLlen]
  have hsplit : L = L.take 50 ++ [d] := by
    conv_lhs => rw [← List.take_append_drop 50 L]
    rw [hd]
  have hdmin : ∀ a ∈ L.take 50, d.last_accessed ≤ a.last_accessed := by
    intro a ha
    have hp := hsplit ▸ hsorted
    have := (List.pairwise_append.mp hp).2.2 a ha d (by simp)
    simpa [histLe] using this
  have hmemL : ∀ x, x ∈ L ↔ x ∈ s ∨ x = N := by
    intro x
    rw [hperm.mem_iff]
    simp
  have hNt : N.last_accessed = now := rfl
  have hrneN : ¬ r = N := by
    intro h
    have h2 := hmax r hrmem
    rw [h, hNt] at h2
    omega
  have hdL : d ∈ L := by
    rw [hsplit]
    simp
  have hrL : r ∈ L := (hmemL r).mpr (Or.inl hrmem)
  have hrmem_take_of_ne : ¬ r = d → r ∈ L.take 50 := by
    intro hne
    have := hsplit ▸ hrL
    rcases List.mem_append.mp this with h | h
    · exact h
    · simp at h
      exact absurd h hne
  have hdr : d = r := by
    rcases (hmemL d).mp hdL with hds | hdN
    · by_contra hne
      have hrt : r ∈ L.take 50 := hrmem_take_of_ne (fun h => hne h.symm)
      have h1 := hdmin r hrt
      have h2 := hrmin d hds hne
      omega
    · exfalso
      have hrt : r ∈ L.take 50 := hrmem_take_of_ne (fun h => hrneN (hdN ▸ h))
      have h1 := hdmin r hrt
      rw [hdN, hNt] at h1
      have h2 := hmax r hrmem
      omega
  have hsnd : s.Nodup := hnodup.of_map
  have hNnotins : ¬ N ∈ s := by
    intro h
    exact hfresh N h rfl
  have hLnd : L.Nodup := by
    rw [hperm.nodup_iff]
    rw [List.nodup_append]
    exact ⟨hsnd, List.nodup_singleton N, by
      intro a ha hb
      simp at hb
      exact hNnotins (hb ▸ ha)⟩
  have hdnotintake : ¬ d ∈ L.take 50 := by
    intro hdt
    have := hsplit ▸ hLnd
    rw [List.nodup_append] at this
    exact this.2.2 hdt (by simp)
  refine ⟨?_, ?_, ?_, ?_⟩
  · rw [hs']
    rw [List.length_take]
    rw [hL] at hLlen ⊢
    omega
  · rw [hs']
    have hNL : N ∈ L := (hmemL N).mpr (Or.inr rfl)
    have := hsplit ▸ hNL
    rcases List.mem_append.mp this with h | h
    · exact h
    · simp at h
      rw [hdr] at h
      exact absurd h.symm hrneN
  · rw [hs']
    rw [← hdr]
    exact hdnotintake
  · intro o ho hone
    rw [hs']
    have hoL : o ∈ L := (hmemL o).mpr (Or.inl ho)
    have := hsplit ▸ hoL
    rcases List.mem_append.mp this with h | h
    · exact h
    · simp at h
      rw [hdr] at h
      exact absurd h hone

theorem history_bound (m : Nat) (g : FSItem) (t : List HistoryItem) :
    (add_file_to_history m g t).length ≤ 50 := by
  rw [add_file_to_history]
  simp only [List.length_take]
  omega

theorem pin_bound (m : Nat) (g : FSItem) (t : List PinnedItem) (ht : t.length ≤ 20) :
    ((pin_file_item m g t).2).length ≤ 20 := by
  rw [pin_file_item]
  split
  · exact ht
  · simp only [List.length_take]
    omega

/-- C7: the recency index never holds more than 50 records and the pin index,
once within its bound of 20, never exceeds it; touching a 51st distinct path
in a full history with strictly older timestamps leaves exactly 50 records,
evicting exactly the record with the unique oldest timestamp. -/
theorem index_bounds_and_eviction
    (s : List HistoryItem) (fi : FSItem) (now : Nat) (r : HistoryItem)
    (hlen : s.length = 50)
    (hnodup : (s.map (fun it => it.full_path)).Nodup)
    (hfresh : ∀ it ∈ s, ¬ it.full_path = fi.full_path)
    (hmax : ∀ it ∈ s, it.last_accessed < now)
    (hrmem : r ∈ s)
    (hrmin : ∀ o ∈ s, ¬ o = r → r.last_accessed < o.last_accessed) :
    (add_file_to_history now fi s).length = 50 ∧
    newHistoryRecord now fi ∈ add_file_to_history now fi s ∧
    ¬ r ∈ add_file_to_history now fi s ∧
    (∀ o ∈ s, ¬ o = r → o ∈ add_file_to_history now fi s) ∧
    (∀ (m : Nat) (g : FSItem) (t : List HistoryItem), (add_file_to_history m g t).length ≤ 50) ∧
    (∀ (m : Nat) (g : FSItem) (t : List PinnedItem), t.length ≤ 20 →
      ((pin_file_item m g t).2).length ≤ 20) := by
  obtain ⟨h1, h2, h3, h4⟩ := recency_eviction s fi now r hlen hnodup hfresh hmax hrmem hrmin
  exact ⟨h1, h2, h3, h4, history_bound, pin_bound⟩

/-- Witness for C7 at a concrete full history of 50 distinct records. -/
theorem index_bounds_and_eviction_witness :
    (add_file_to_history 100 probeFile hist50).length = 50 ∧
    newHistoryRecord 100 probeFile ∈ add_file_to_history 100 probeFile hist50 ∧
    ¬ oldestRecord ∈ add_file_to_history 100 probeFile hist50 ∧
    (∀ o ∈ hist50, ¬ o = oldestRecord → o ∈ add_file_to_history 100 probeFile hist50) ∧
    (∀ (m : Nat) (g : FSItem) (t : List HistoryItem), (add_file_to_history m g t).length ≤ 50) ∧
    (∀ (m : Nat) (g : FSItem) (t : List PinnedItem), t.length ≤ 20 →
      ((pin_file_item m g t).2).length ≤ 20) :=
  index_bounds_and_eviction hist50 probeFile 100 oldestRecord (by decide) (by decide)
    (by decide) (by decide) (by decide) (by decide)

/-- C1 (amended): on a successful rename or move the synchronizer rewrites the
indexes by exact path equality only — a record is rewritten precisely when its
`full_path` equals the old path, its cached name refreshed when it equals the
old basename; every record with any other path, including records strictly
inside a moved Folder subtree, survives verbatim; and the pin index is updated
only for File items. -/
theorem update_path_exact_only
    (fsExists : Str → Bool) (it : FSItem) (candidate target : Str)
    (hist : List HistoryItem) (pins : List PinnedItem) :
    (∀ np, renameOperation fsExists it candidate = RenameOutcome.renamed np →
      dashboardRename fsExists it candidate hist pins =
        (RenameOutcome.renamed np, history_update_path it.full_path np hist,
         if it.kind = ItemKind.file then pin_update_path it.full_path np pins else pins)) ∧
    (∀ np, moveOperation fsExists it target = MoveOutcome.moved np →
      dashboardMove fsExists it target hist pins =
        (MoveOutcome.moved np, history_update_path it.full_path np hist,
         if it.kind = ItemKind.file then pin_update_path it.full_path np pins else pins)) ∧
    (∀ np h0, h0 ∈ hist → ¬ h0.full_path = it.full_path →
      h0 ∈ history_update_path it.full_path np hist) ∧
    (∀ np p0, p0 ∈ pins → ¬ p0.full_path = it.full_path →
      p0 ∈ pin_update_path it.full_path np pins) := by
  refine ⟨?_, ?_, ?_, ?_⟩
  · intro np hr
    rw [dashboardRename, hr]
  · intro np hm
    rw [dashboardMove, hm]
  · intro np h0 hmem hne
    rw [history_update_path]
    refine List.mem_map.mpr ⟨h0, hmem, ?_⟩
    rw [if_neg hne]
  · intro np p0 hmem hne
    rw [pin_update_path]
    refine List.mem_map.mpr ⟨p0, hmem, ?_⟩
    rw [if_neg hne]

/-- Counterexample for C1 as stated: renaming the folder with raw name -__A to
B succeeds, yet the history and pin records whose path lies strictly inside
the renamed subtree keep their old paths — no path-prefix rewrite happens. -/
theorem folder_rename_leaves_subtree_stale :
    dashboardRename (fun _ => false) ⟨str "-__A", str "data/-__A", ItemKind.folder⟩ (str "B")
        [⟨str "f", str "data/-__A/f", 5, 1⟩] [⟨str "f", str "data/-__A/f", 5⟩] =
      (RenameOutcome.renamed (str "data/-__B"),
       [⟨str "f", str "data/-__A/f", 5, 1⟩], [⟨str "f", str "data/-__A/f", 5⟩]) ∧
    str "data/-__A/" <+: str "data/-__A/f" := by
  constructor
  · decide
  · decide

/-- Witness for C1 (amended) at a concrete successful folder rename and move. -/
theorem update_path_exact_only_witness :
    dashboardRename (fun _ => false) folderA (str "B") subHist subPins =
      (RenameOutcome.renamed (str "data/-__B"),
       history_update_path folderA.full_path (str "data/-__B") subHist,
       if folderA.kind = ItemKind.file then
         pin_update_path folderA.full_path (str "data/-__B") subPins
       else subPins) ∧
    dashboardMove (fun _ => false) folderA (str "data/-__C") subHist subPins =
      (MoveOutcome.moved (str "data/-__C/-__A"),
       history_update_path folderA.full_path (str "data/-__C/-__A") subHist,
       if folderA.kind = ItemKind.file then
         pin_update_path folderA.full_path (str "data/-__C/-__A") subPins
       else subPins) :=
  ⟨(update_path_exact_only (fun _ => false) folderA (str "B") (str "data/-__C")
      subHist subPins).1 (str "data/-__B") (by decide),
   (update_path_exact_only (fun _ => false) folderA (str "B") (str "data/-__C")
      subHist subPins).2.1 (str "data/-__C/-__A") (by decide)⟩

/-- C3 (amended): after a successful delete the recency index holds no record
with the deleted path; the pin index is purged of the exact path only for File
items, and is left untouched for Folder deletes; records under a deleted
Folder subtree are not removed from either index. -/
theorem delete_sync_exact_only (it : FSItem) (hist : List HistoryItem) (pins : List PinnedItem) :
    (∀ h0 ∈ (dashboardDelete true it hist pins).2.1, ¬ h0.full_path = it.full_path) ∧
    (it.kind = ItemKind.file →
      ∀ p0 ∈ (dashboardDelete true it hist pins).2.2, ¬ p0.full_path = it.full_path) ∧
    (it.kind = ItemKind.folder → (dashboardDelete true it hist pins).2.2 = pins) := by
  refine ⟨?_, ?_, ?_⟩
  · intro h0 hmem
    rw [dashboardDelete] at hmem
    simp only [if_pos rfl] at hmem
    have := (List.mem_filter.mp hmem).2
    simpa using this
  · intro hf p0 hmem
    rw [dashboardDelete] at hmem
    simp only [if_pos rfl, if_pos hf] at hmem
    have := (List.mem_filter.mp hmem).2
    simpa using this
  · intro hf
    have hcond : ¬ it.kind = ItemKind.file := by
      rw [hf]
      decide
    rw [dashboardDelete]
    rw [if_neg hcond]
    simp

/-- Counterexample for C3 as stated: deleting the folder with raw name -__A
succeeds, yet both indexes keep a record whose path falls under the deleted
subtree. -/
theorem folder_delete_leaves_subtree :
    dashboardDelete true ⟨str "-__A", str "data/-__A", ItemKind.folder⟩
        [⟨str "f", str "data/-__A/f", 5, 1⟩] [⟨str "f", str "data/-__A/f", 5⟩] =
      (true, [⟨str "f", str "data/-__A/f", 5, 1⟩], [⟨str "f", str "data/-__A/f", 5⟩]) ∧
    str "data/-__A/" <+: str "data/-__A/f" := by
  constructor
  · decide
  · decide

/-- Witness for C3 (amended) at a concrete File delete and Folder delete. -/
theorem delete_sync_exact_only_witness :
    (∀ p0 ∈ (dashboardDelete true docFile subHist subPins).2.2,
      ¬ p0.full_path = docFile.full_path) ∧
    (dashboardDelete true folderA subHist subPins).2.2 = subPins :=
  ⟨(delete_sync_exact_only docFile subHist subPins).2.1 rfl,
   (delete_sync_exact_only folderA subHist subPins).2.2 rfl⟩

/-- C2 (amended): opening a File item skips password verification exactly when
the credential load yields nothing — the file being missing, or existing but
unreadable; whenever the blob is successfully loaded, even if corrupt, opening
is gated on verification against it. -/
theorem corrupt_blob_gate (blob : Str) :
    open_file_with_password_check (CredFile.present blob) = OpenFlow.authRequired blob ∧
    (∀ cf, open_file_with_password_check cf = OpenFlow.openedDirectly ↔
      load_password_hash cf = none) := by
  refine ⟨rfl, ?_⟩
  intro cf
  cases cf <;> simp [open_file_with_password_check, load_password_hash]

/-- Counterexample for C2 as stated: a credential file that exists but whose
blob cannot be loaded makes the open proceed with no password verification. -/
theorem unreadable_blob_opens_directly :
    open_file_with_password_check CredFile.unreadable = OpenFlow.openedDirectly ∧
    ¬ CredFile.unreadable = CredFile.missing := by
  exact ⟨rfl, by decide⟩

/-- C6 (amended): rename rejects an empty candidate with a validation error
and a candidate containing an invalid character with a validation error
unless the stripped candidate equals the item's current display name (an
informational no-op); an existing destination yields a collision error; the
filesystem changes only on a successful rename. -/
theorem rename_validation (fsExists : Str → Bool) (it : FSItem) (candidate : Str) :
    (candidate = [] → renameOperation fsExists it candidate = RenameOutcome.emptyName) ∧
    (hasInvalidChar (pstrip candidate) = true → ¬ pstrip candidate = display_name it →
      renameOperation fsExists it candidate = RenameOutcome.invalidName) ∧
    (¬ pstrip candidate = [] → ¬ pstrip candidate = display_name it →
      hasInvalidChar (pstrip candidate) = false →
      fsExists (joinPath (dirname it.full_path)
        (if it.kind = ItemKind.folder then folderMarker ++ pstrip candidate
         else pstrip candidate)) = true →
      renameOperation fsExists it candidate = RenameOutcome.collision) ∧
    (∀ o, renameChangesFs o = true → ∃ np, o = RenameOutcome.renamed np) := by
  refine ⟨?_, ?_, ?_, ?_⟩
  · intro h
    subst h
    rfl
  · intro hinv hne
    have hne2 : ¬ pstrip candidate = [] := by
      intro h
      rw [h] at hinv
      exact absurd hinv (by decide)
    rw [renameOperation]
    rw [if_neg hne2, if_neg hne, if_pos hinv]
  · intro h1 h2 h3 h4
    rw [renameOperation]
    rw [if_neg h1, if_neg h2, if_neg (by simp [h3]), if_pos h4]
  · intro o ho
    cases o <;> simp_all [renameChangesFs]

/-- Counterexample for C6 as stated: a candidate equal to the item's current
display name but containing an invalid character is answered with the
informational unchanged result, not a validation error. -/
theorem unchanged_name_beats_invalid_chars :
    hasInvalidChar (str "a:b") = true ∧
    renameOperation (fun _ => false) ⟨str "a:b", str "data/a:b", ItemKind.file⟩ (str "a:b") =
      RenameOutcome.unchanged ∧
    ¬ RenameOutcome.unchanged = RenameOutcome.invalidName ∧
    ¬ RenameOutcome.unchanged = RenameOutcome.emptyName := by
  refine ⟨by decide, by decide, by decide, by decide⟩

/-- Witness for C6 (amended): empty, invalid and colliding candidates at
concrete inputs. -/
theorem rename_validation_witness :
    renameOperation (fun _ => false) docFile [] = RenameOutcome.emptyName ∧
    renameOperation (fun _ => false) docFile (str "x:y") = RenameOutcome.invalidName ∧
    renameOperation (fun _ => true) docFile (str "newname") = RenameOutcome.collision :=
  ⟨(rename_validation (fun _ => false) docFile []).1 rfl,
   (rename_validation (fun _ => false) docFile (str "x:y")).2.1 (by decide) (by decide),
   (rename_validation (fun _ => true) docFile (str "newname")).2.2.1
     (by decide) (by decide) (by decide) (by decide)⟩

/-- Witness for C4 at the concrete folder moved onto its own path. -/
theorem move_rejects_witness :
    moveOperation (fun _ => false)
        ⟨str "-__A", str "data/-__A", ItemKind.folder⟩ (str "data/-__A") =
      MoveOutcome.selfContained ∧
    moveChangesFs (moveOperation (fun _ => false)
        ⟨str "-__A", str "data/-__A", ItemKind.folder⟩ (str "data/-__A")) = false :=
  move_rejects_self_containment (fun _ => false) (str "-__A") (str "data/-__A")
    (str "data/-__A") (by decide) (Or.inl rfl)

/-- C9: encoding a validated display name with the reserved folder marker and
decoding the raw name through scan classification and display-name stripping
returns kind Folder and exactly the original name. -/
theorem folder_codec_roundtrip (base : Str) (n : Str) (hv : validateName n = true) :
    (classifyEntry base (folderMarker ++ n)).kind = ItemKind.folder ∧
    display_name (classifyEntry base (folderMarker ++ n)) = n := by
  have hb : validateName n = true := hv
  have hpre : folderMarker.isPrefixOf (folderMarker ++ n) = true := by
    rw [ List.isPrefixOf_iff_prefix]
    exact List.prefix_append _ _
  have hcl : classifyEntry base (folderMarker ++ n) =
      { name := folderMarker ++ n, full_path := joinPath base (folderMarker ++ n),
        kind := ItemKind.folder } := by
    rw [classifyEntry, if_pos hpre]
  refine ⟨by rw [hcl], ?_⟩
  rw [hcl, display_name]
  rw [if_pos ⟨rfl, hpre⟩]
  show (folderMarker ++ n).drop 3 = n
  rw [show (3 : Nat) = folderMarker.length from rfl, List.drop_left]

/-- Witness for C9 at the display name Notes. -/
theorem folder_codec_witness :
    (classifyEntry (str "data") (folderMarker ++ str "Notes")).kind = ItemKind.folder ∧
    display_name (classifyEntry (str "data") (folderMarker ++ str "Notes")) = str "Notes" :=
  folder_codec_roundtrip (str "data") (str "Notes") (by decide)

/-- C5: verifying a freshly derived credential with the same password
succeeds for every password, and verifying it with the password extended by
one character fails whenever the KDF output for the extended password differs
from the stored key — the only fact about the external scrypt primitive the
embedding cannot discharge itself. -/
theorem password_roundtrip (kdf : Bytes → Str → Bytes) (salt : Bytes) (p : Str)
    (hlen : salt.length = 16) (hsalt : ∀ b ∈ salt, b < 256)
    (hkey : ∀ b ∈ kdf salt p, b < 256) :
    verify_password kdf (hash_password kdf salt p) p = true ∧
    (¬ kdf salt (p ++ str "x") = kdf salt p →
      verify_password kdf (hash_password kdf salt p) (p ++ str "x") = false) := by
  constructor
  · rw [verify_hash kdf salt p p hlen hsalt hkey]
    simp
  · intro hne
    rw [verify_hash kdf salt p _ hlen hsalt hkey]
    simpa using hne

/-- Witness for C5 with a concrete KDF and salt. -/
theorem password_roundtrip_witness :
    verify_password kdfProbe (hash_password kdfProbe saltProbe (str "a")) (str "a") = true ∧
    verify_password kdfProbe (hash_password kdfProbe saltProbe (str "a"))
      (str "a" ++ str "x") = false :=
  have h := password_roundtrip kdfProbe saltProbe (str "a") (by decide) (by decide) (by decide)
  ⟨h.1, h.2 (by decide)⟩

/-- C10: with no explicit password, the credential created for a File item is
the hash of the first three characters of its display name, and verification
with that default password succeeds. -/
theorem default_password_verifies (kdf : Bytes → Str → Bytes) (salt : Bytes) (it : FSItem)
    (hlen : salt.length = 16) (hsalt : ∀ b ∈ salt, b < 256)
    (hkey : ∀ b ∈ kdf salt ((display_name it).take 3), b < 256) :
    setup_password_for_item kdf salt it none =
      hash_password kdf salt ((display_name it).take 3) ∧
    verify_password kdf (setup_password_for_item kdf salt it none)
      ((display_name it).take 3) = true := by
  refine ⟨rfl, ?_⟩
  show verify_password kdf (hash_password kdf salt ((display_name it).take 3)) _ = true
  rw [verify_hash kdf salt _ _ hlen hsalt hkey]
  simp

/-- Witness for C10 at the concrete File item named Diary. -/
theorem default_password_witness :
    setup_password_for_item kdfProbe saltProbe diaryFile none =
      hash_password kdfProbe saltProbe ((display_name diaryFile).take 3) ∧
    verify_password kdfProbe (setup_password_for_item kdfProbe saltProbe diaryFile none)
      ((display_name diaryFile).take 3) = true :=
  default_password_verifies kdfProbe saltProbe diaryFile (by decide) (by decide) (by decide)
